import Mathlib

/-!
# crawler: the crawl handler and the extension filter of `main.go`

A shallow embedding of `crawlHandler` and `filterLinks`, and the properties of
the traversal (frontier, visited set, discovered links) and of the extension
filter that follow from the code.

Conventions of the embedding.

* Go strings are Lean `String`s: sequences of Unicode code points, i.e. Go
  strings holding valid UTF-8.
* The collaborators the handler calls but does not define (URL parsing and
  reference resolution of `net/url`, request construction and transport of
  `net/http`, the tokenizer of `golang.org/x/net/html`, the Unicode folding
  table) are the fields of `Env`; general theorems hold for every `Env`.
* A response body is the finite list of tokens that successive `z.Next()` /
  `z.Token()` calls return before the tokenizer reports `ErrorToken` at the end
  of the stream.
* The attribute list of a tag token is whatever the tokenizer delivers for the
  tag; the theorems about the attribute loop hold for every list, with or
  without repeated keys.
* The outer `for len(toVisit) > 0` loop is run with fuel; termination is a
  theorem, not an assumption.
-/

namespace Crawler

/-! ## Standard-library functions used by `filterLinks` -/

/-- Code points of a string, as `for _, r := range s` yields them. -/
def runes (s : String) : List Nat := s.toList.map Char.toNat

/-- Unix `os.IsPathSeparator`. -/
def IsPathSeparator (c : Char) : Bool := c == '/'

/-- Loop of `filepath.Ext`: `before` holds `path[0..i]` reversed, `after` holds
`path[i+1..]`; the scan stops at a path separator and returns `path[i:]` at the
first dot met. -/
def Ext.scan : List Char → List Char → List Char
  | [], _ => []
  | c :: before, after =>
    if IsPathSeparator c then []
    else if c = '.' then c :: after
    else Ext.scan before (c :: after)

/-- Go `filepath.Ext(path)`: the suffix beginning at the final dot in the final
element of `path`; empty if there is no dot. -/
def Ext (path : String) : String := String.mk (Ext.scan path.toList.reverse [])

/-- One comparison step of `strings.EqualFold` on the runes `sr` and `tr`:
equal runes match; otherwise they are ordered, two ASCII runes match when the
smaller is an upper-case letter and the larger its lower-case form, and any
other pair is decided by walking `unicode.SimpleFold` from the smaller rune,
which is the table lookup `simpleFold lo hi`. -/
def foldPair (simpleFold : Nat → Nat → Bool) (sr tr : Nat) : Bool :=
  if tr = sr then true
  else
    let lo := min sr tr
    let hi := max sr tr
    if hi < 128 then decide (65 ≤ lo ∧ lo ≤ 90 ∧ hi = lo + 32)
    else simpleFold lo hi

/-- Rune loop of `strings.EqualFold`; both strings must be exhausted together. -/
def EqualFold.loop (simpleFold : Nat → Nat → Bool) : List Nat → List Nat → Bool
  | [], [] => true
  | [], _ :: _ => false
  | _ :: _, [] => false
  | sr :: s, tr :: t =>
    if foldPair simpleFold sr tr then EqualFold.loop simpleFold s t else false

/-- Go `strings.EqualFold(s, t)`. -/
def EqualFold (simpleFold : Nat → Nat → Bool) (s t : String) : Bool :=
  EqualFold.loop simpleFold (runes s) (runes t)

/-! ## `filterLinks` -/

/-- Inner loop of `filterLinks` over the allowed extensions: appends `link` at
the first matching entry and breaks. -/
def filterLinks.inner (simpleFold : Nat → Nat → Bool) (link ext : String)
    (filteredLinks : List String) : List String → List String
  | [] => filteredLinks
  | allowedExt :: rest =>
    if EqualFold simpleFold ext allowedExt then filteredLinks ++ [link]
    else filterLinks.inner simpleFold link ext filteredLinks rest

/-- Outer loop of `filterLinks` over the links. -/
def filterLinks.outer (simpleFold : Nat → Nat → Bool) (extensions : List String) :
    List String → List String → List String
  | filteredLinks, [] => filteredLinks
  | filteredLinks, link :: rest =>
    filterLinks.outer simpleFold extensions
      (filterLinks.inner simpleFold link (Ext link) filteredLinks extensions) rest

/-- The function `filterLinks(links, extensions)` of `main.go`. -/
def filterLinks (simpleFold : Nat → Nat → Bool) (links extensions : List String) :
    List String :=
  filterLinks.outer simpleFold extensions [] links

/-- Whether some allowed extension folds to the extension of `link`. -/
def matchesAny (simpleFold : Nat → Nat → Bool) (extensions : List String)
    (link : String) : Bool :=
  extensions.any (fun allowedExt => EqualFold simpleFold (Ext link) allowedExt)

/-- ASCII lower-casing of a rune. -/
def asciiLower (r : Nat) : Nat := if 65 ≤ r ∧ r ≤ 90 then r + 32 else r

/-- A string all of whose runes are ASCII. -/
def IsASCII (s : String) : Prop := ∀ r ∈ runes s, r < 128

/-- Specification of one letter position, from the words "equals when letter
case is ignored": the runes `a` and `b` are the same rune, or both are ASCII and
have the same lower-case form, or one of them lies outside ASCII and the
Unicode folding table relates them. -/
def sameLetter (simpleFold : Nat → Nat → Bool) (a b : Nat) : Bool :=
  a == b
    || (decide (a < 128) && decide (b < 128) && asciiLower a == asciiLower b)
    || (decide (128 ≤ max a b) && simpleFold (min a b) (max a b))

/-- Specification of case-insensitive equality of two strings: they have the
same number of runes and the same letter, case ignored, at every position. -/
def equalIgnoringCase (simpleFold : Nat → Nat → Bool) (s t : String) : Bool :=
  decide ((runes s).length = (runes t).length)
    && (List.zip (runes s) (runes t)).all (fun p => sameLetter simpleFold p.1 p.2)

/-- A fold table that relates no two runes (enough for ASCII inputs). -/
def noFold : Nat → Nat → Bool := fun _ _ => false

/-! ## The crawl handler -/

/-- Token kinds of `golang.org/x/net/html`. -/
inductive TokenType
  | ErrorToken
  | TextToken
  | StartTagToken
  | EndTagToken
  | SelfClosingTagToken
  | CommentToken
  | DoctypeToken
  deriving DecidableEq, Repr

/-- An `html.Attribute`. -/
structure Attribute where
  Key : String
  Val : String
  deriving DecidableEq, Repr

/-- An `html.Token`; `Typ` is its `Type` field. -/
structure Token where
  Typ : TokenType
  Data : String
  Attr : List Attribute
  deriving DecidableEq, Repr

/-- The part of a `*url.URL` the handler reads: its `Scheme` field and the
result `str` of its `String()` method. -/
structure URL where
  Scheme : String
  str : String
  deriving DecidableEq, Repr

/-- The collaborators of the handler. `Do fetched urlStr` is the outcome of
`client.Do` on a GET request for `urlStr` when the requests in `fetched` were
made before it: `none` is an error, `some body` the token stream of the
response body. -/
structure Env where
  urlParse : String → Option URL
  Parse : URL → String → Option URL
  NewRequest : String → Bool
  Do : List String → String → Option (List Token)
  simpleFold : Nat → Nat → Bool

/-- Local variables of `crawlHandler` at the head of the outer loop; `fetched`
is a ghost log of the URLs passed to `client.Do`, in call order. -/
structure State where
  visited : List String
  toVisit : List String
  links : List String
  fetched : List String
  deriving DecidableEq, Repr

/-- The state before the first iteration: `visited` empty,
`toVisit = []string{urlStr}`, `links` empty. -/
def State.init (urlStr : String) : State :=
  { visited := [], toVisit := [urlStr], links := [], fetched := [] }

/-- The loop `for _, attr := range t.Attr` on an `a` tag: a `href` that does not
resolve or has another scheme than `u` goes on to the next attribute
(`continue`); the first one admitted is appended to `toVisit` and `links` and
ends the loop (`break`). -/
def attrLoop (env : Env) (u : URL) (st : State) : List Attribute → State
  | [] => st
  | attr :: rest =>
    if attr.Key = "href" then
      match env.Parse u attr.Val with
      | none => attrLoop env u st rest
      | some linkURL =>
        if linkURL.Scheme ≠ u.Scheme then attrLoop env u st rest
        else
          { st with
            toVisit := st.toVisit ++ [linkURL.str]
            links := st.links ++ [linkURL.str] }
    else attrLoop env u st rest

/-- The tokenizer loop `for { tt := z.Next(); ... }` up to the `ErrorToken`
that ends it; the result is the state in which `filterLinks` is then called. -/
def tokenLoop (env : Env) (u : URL) : State → List Token → State
  | st, [] => st
  | st, t :: rest =>
    match t.Typ with
    | .ErrorToken => st
    | .StartTagToken | .SelfClosingTagToken =>
      if t.Data = "a" then tokenLoop env u (attrLoop env u st t.Attr) rest
      else tokenLoop env u st rest
    | _ => tokenLoop env u st rest

/-- Where control is after one pass through the body of the outer loop. -/
inductive Outcome
  | running (st : State)
  | rendered (st : State) (filteredLinks : List String)
  | finished (st : State)
  deriving DecidableEq, Repr

/-- The local variables at an outcome. -/
def Outcome.state : Outcome → State
  | .running st => st
  | .rendered st _ => st
  | .finished st => st

/-- One evaluation of the loop condition and, if it holds, of the loop body.
`finished`: `toVisit` is empty and the handler falls off its end. `running`:
the body ended in a `continue`. `rendered`: the tokenizer reported `ErrorToken`,
`results.html` was executed on `filterLinks(links, extensions)` and the handler
returned. -/
def iteration (env : Env) (u : URL) (extensions : List String) (st : State) : Outcome :=
  match st.toVisit with
  | [] => .finished st
  | urlStr :: rest =>
    if urlStr ∈ st.visited then .running { st with toVisit := rest }
    else
      let st1 : State := { st with toVisit := rest, visited := urlStr :: st.visited }
      if env.NewRequest urlStr then
        let st2 : State := { st1 with fetched := st1.fetched ++ [urlStr] }
        match env.Do st.fetched urlStr with
        | none => .running st2
        | some body =>
          let st3 := tokenLoop env u st2 body
          .rendered st3 (filterLinks env.simpleFold st3.links extensions)
      else .running st1

/-- At most `fuel` passes through the outer loop, from `st`. -/
def iterate (env : Env) (u : URL) (extensions : List String) : Nat → State → Outcome
  | 0, st => .running st
  | fuel + 1, st =>
    match iteration env u extensions st with
    | .running st1 => iterate env u extensions fuel st1
    | o => o

/-- What the client receives. -/
inductive Response
  | badRequest
  | results (filteredLinks : List String)
  | noBody
  deriving DecidableEq, Repr

/-- The handler `crawlHandler` on the form values `url = urlStr` and
`extensions` (already split at commas); `none` when `fuel` passes do not end
the loop. -/
def crawlHandler (env : Env) (fuel : Nat) (extensions : List String) (urlStr : String) :
    Option Response :=
  match env.urlParse urlStr with
  | none => some .badRequest
  | some u =>
    match iterate env u extensions fuel (State.init urlStr) with
    | .running _ => none
    | .rendered _ filteredLinks => some (.results filteredLinks)
    | .finished _ => some .noBody

/-! ## Example collaborators

The site `http://a.test` used in the concrete evaluations. `exampleParse` holds
the values `(*url.URL).Parse` returns, for a base on `http://a.test` whose path
lies in the root directory, at the references that occur on the example pages;
no other reference occurs there. -/

/-- Values of `url.Parse` at the example seeds. -/
def exampleUrlParse (urlStr : String) : Option URL :=
  if urlStr = "http://a.test/" then some ⟨"http", "http://a.test/"⟩
  else if urlStr = "http://a.test/a.html" then some ⟨"http", "http://a.test/a.html"⟩
  else none

/-- Values of `u.Parse(ref)` at the references of the example pages. -/
def exampleParse (_u : URL) (ref : String) : Option URL :=
  if ref = "/p1" then some ⟨"http", "http://a.test/p1"⟩
  else if ref = "p2.jpg" then some ⟨"http", "http://a.test/p2.jpg"⟩
  else if ref = "ftp://a.test/f" then some ⟨"ftp", "ftp://a.test/f"⟩
  else if ref = "/a.html" then some ⟨"http", "http://a.test/a.html"⟩
  else if ref = "/b.html" then some ⟨"http", "http://a.test/b.html"⟩
  else none

/-- The token of a start tag `<a href=...>` with the single attribute `href`. -/
def anchor (href : String) : Token :=
  { Typ := .StartTagToken, Data := "a", Attr := [⟨"href", href⟩] }

/-- The example environment serving the pages `pages`. -/
def exampleEnv (pages : String → Option (List Token)) : Env :=
  { urlParse := exampleUrlParse
    Parse := exampleParse
    NewRequest := fun _ => true
    Do := fun _ urlStr => pages urlStr
    simpleFold := noFold }

/-- Two pages linking to each other: `a.html` links to `b.html` and back. -/
def cyclicSite (urlStr : String) : Option (List Token) :=
  if urlStr = "http://a.test/a.html" then some [anchor "/b.html"]
  else if urlStr = "http://a.test/b.html" then some [anchor "/a.html"]
  else none

/-- A seed page with three anchors, one of them to another scheme. -/
def schemeSite (urlStr : String) : Option (List Token) :=
  if urlStr = "http://a.test/" then
    some [anchor "/p1", anchor "p2.jpg", anchor "ftp://a.test/f"]
  else none

/-- A site on which every request fails. -/
def deadSite (_urlStr : String) : Option (List Token) := none

/-! ## Predicates used in the statements -/

/-- What an attribute contributes on its own: the string of the URL its value
resolves to, when it is a `href` that resolves against `u` to a URL with the
scheme of `u`. -/
def admits (env : Env) (u : URL) (attr : Attribute) : Option String :=
  if attr.Key = "href" then
    match env.Parse u attr.Val with
    | none => none
    | some linkURL => if linkURL.Scheme = u.Scheme then some linkURL.str else none
  else none

/-- The string `s` is `linkURL.String()` for a URL obtained by `u.Parse` whose
scheme is the scheme of `u`. -/
def Admitted (env : Env) (u : URL) (s : String) : Prop :=
  ∃ ref linkURL, env.Parse u ref = some linkURL ∧ linkURL.Scheme = u.Scheme ∧ linkURL.str = s

/-- The state `st1` arises from `st` by link extraction: visited set and fetch
log are untouched, and whatever is new in the frontier or in the discovered
links was admitted by the scheme test. -/
def Extends (env : Env) (u : URL) (st st1 : State) : Prop :=
  st1.visited = st.visited ∧ st1.fetched = st.fetched
    ∧ (∀ s ∈ st1.toVisit, s ∈ st.toVisit ∨ Admitted env u s)
    ∧ (∀ s ∈ st1.links, s ∈ st.links ∨ Admitted env u s)

/-- Invariant of the outer loop: no URL was requested twice, every requested
URL is marked visited, and every frontier entry but the seed and every
discovered link was admitted by the scheme test. -/
def Inv (env : Env) (u : URL) (urlStr : String) (st : State) : Prop :=
  st.fetched.Nodup ∧ (∀ s ∈ st.fetched, s ∈ st.visited)
    ∧ (∀ s ∈ st.toVisit, s = urlStr ∨ Admitted env u s)
    ∧ (∀ s ∈ st.links, Admitted env u s)

/-- The seed of the examples on `http://a.test/`. -/
def seedRoot : URL := ⟨"http", "http://a.test/"⟩

/-- The seed of the cyclic example. -/
def seedA : URL := ⟨"http", "http://a.test/a.html"⟩

/-- A state with two frontier entries and nothing visited. -/
def twoPending : State :=
  { visited := [], toVisit := ["http://a.test/down", "http://a.test/next"],
    links := [], fetched := [] }

/-! ## The extension filter -/

theorem filterLinks_inner_eq (sf : Nat → Nat → Bool) (link ext : String)
    (acc extensions : List String) :
    filterLinks.inner sf link ext acc extensions =
      if extensions.any (fun e => EqualFold sf ext e) then acc ++ [link] else acc := by
  induction extensions with
  | nil => simp [filterLinks.inner]
  | cons e rest ih =>
    by_cases h : EqualFold sf ext e = true
    · simp [filterLinks.inner, h]
    · simp [filterLinks.inner, h, ih]

theorem filterLinks_outer_eq (sf : Nat → Nat → Bool) (extensions links acc : List String) :
    filterLinks.outer sf extensions acc links =
      acc ++ links.filter (matchesAny sf extensions) := by
  induction links generalizing acc with
  | nil => simp [filterLinks.outer]
  | cons l rest ih =>
    rw [filterLinks.outer, ih, filterLinks_inner_eq]
    by_cases h : matchesAny sf extensions l = true
    · have h2 : (extensions.any fun e => EqualFold sf (Ext l) e) = true := h
      simp [h, h2]
    · have h2 : ¬ (extensions.any fun e => EqualFold sf (Ext l) e) = true := h
      simp [h, h2]

theorem filterLinks_filter (sf : Nat → Nat → Bool) (links extensions : List String) :
    filterLinks sf links extensions = links.filter (matchesAny sf extensions) := by
  simp [filterLinks, filterLinks_outer_eq]

theorem foldPair_ascii (sf : Nat → Nat → Bool) (a b : Nat) (ha : a < 128) (hb : b < 128) :
    foldPair sf a b = true ↔ asciiLower a = asciiLower b := by
  unfold foldPair asciiLower
  by_cases hab : b = a
  · simp [hab]
  · simp only [hab, if_false]
    have hmax : max a b < 128 := max_lt ha hb
    simp only [hmax, if_true, decide_eq_true_eq]
    rcases le_total a b with h | h
    · rw [min_eq_left h, max_eq_right h]
      split_ifs <;> omega
    · rw [min_eq_right h, max_eq_left h]
      split_ifs <;> omega

theorem EqualFold_loop_ascii (sf : Nat → Nat → Bool) (s t : List Nat)
    (hs : ∀ r ∈ s, r < 128) (ht : ∀ r ∈ t, r < 128) :
    EqualFold.loop sf s t = true ↔ s.map asciiLower = t.map asciiLower := by
  induction s generalizing t with
  | nil => cases t <;> simp [EqualFold.loop]
  | cons a s ih =>
    cases t with
    | nil => simp [EqualFold.loop]
    | cons b t =>
      have ha : a < 128 := hs a (by simp)
      have hb : b < 128 := ht b (by simp)
      have ih2 := ih t (fun r hr => hs r (by simp [hr])) (fun r hr => ht r (by simp [hr]))
      simp only [EqualFold.loop, List.map_cons, List.cons.injEq]
      rw [← foldPair_ascii sf a b ha hb, ← ih2]
      by_cases h : foldPair sf a b = true <;> simp [h]

/-- On ASCII strings `EqualFold` is equality of the lower-cased strings. -/
theorem EqualFold_ascii_iff (sf : Nat → Nat → Bool) (s t : String)
    (hs : IsASCII s) (ht : IsASCII t) :
    EqualFold sf s t = true ↔ (runes s).map asciiLower = (runes t).map asciiLower :=
  EqualFold_loop_ascii sf (runes s) (runes t) hs ht

theorem Ext_scan_skip (suf before after : List Char)
    (hdot : '.' ∉ suf) (hsep : '/' ∉ suf) :
    Ext.scan (suf.reverse ++ before) after = Ext.scan before (suf ++ after) := by
  induction suf generalizing before with
  | nil => simp
  | cons c suf ih =>
    have hc1 : c ≠ '.' := fun h => hdot (by simp [h])
    have hc2 : c ≠ '/' := fun h => hsep (by simp [h])
    have h1 : '.' ∉ suf := fun h => hdot (by simp [h])
    have h2 : '/' ∉ suf := fun h => hsep (by simp [h])
    rw [List.reverse_cons, List.append_assoc, List.singleton_append, ih (c :: before) h1 h2]
    simp [Ext.scan, IsPathSeparator, hc1, hc2]

theorem Ext_of_dot (pre suf : List Char) (hdot : '.' ∉ suf) (hsep : '/' ∉ suf) :
    Ext (String.mk (pre ++ '.' :: suf)) = String.mk ('.' :: suf) := by
  have h := Ext_scan_skip suf ('.' :: pre.reverse) [] hdot hsep
  simp only [Ext, String.toList, List.reverse_append, List.reverse_cons, List.append_assoc,
    List.singleton_append]
  rw [h]
  simp [Ext.scan, IsPathSeparator]

theorem Ext_of_sep (pre suf : List Char) (hdot : '.' ∉ suf) (hsep : '/' ∉ suf) :
    Ext (String.mk (pre ++ '/' :: suf)) = "" := by
  have h := Ext_scan_skip suf ('/' :: pre.reverse) [] hdot hsep
  simp only [Ext, String.toList, List.reverse_append, List.reverse_cons, List.append_assoc,
    List.singleton_append]
  rw [h]
  simp [Ext.scan, IsPathSeparator]

theorem Ext_of_plain (suf : List Char) (hdot : '.' ∉ suf) (hsep : '/' ∉ suf) :
    Ext (String.mk suf) = "" := by
  have h := Ext_scan_skip suf [] [] hdot hsep
  simp only [Ext, String.toList]
  rw [List.append_nil] at h
  rw [h]
  simp [Ext.scan]

theorem foldPair_eq_sameLetter (sf : Nat → Nat → Bool) (a b : Nat) :
    foldPair sf a b = sameLetter sf a b := by
  by_cases hab : b = a
  · subst hab
    simp [foldPair, sameLetter]
  · have hba : a ≠ b := fun h => hab h.symm
    by_cases hmax : max a b < 128
    · have ha : a < 128 := lt_of_le_of_lt (le_max_left a b) hmax
      have hb : b < 128 := lt_of_le_of_lt (le_max_right a b) hmax
      have h1 := foldPair_ascii sf a b ha hb
      have h2 : sameLetter sf a b = true ↔ asciiLower a = asciiLower b := by
        simp [sameLetter, hba, ha, hb, hmax]
      rw [Bool.eq_iff_iff, h1, h2]
    · have hge : 128 ≤ max a b := not_lt.mp hmax
      have hnot : ¬ (a < 128 ∧ b < 128) := fun h => hmax (max_lt h.1 h.2)
      have h1 : foldPair sf a b = sf (min a b) (max a b) := by
        simp [foldPair, hab, hmax]
      have h2 : sameLetter sf a b = sf (min a b) (max a b) := by
        unfold sameLetter
        by_cases ha : a < 128
        · have hb : ¬ b < 128 := fun h => hnot ⟨ha, h⟩
          simp [hba, ha, hb, hge]
        · simp [hba, ha, hge]
      rw [h1, h2]

theorem EqualFold_loop_eq_spec (sf : Nat → Nat → Bool) (s t : List Nat) :
    EqualFold.loop sf s t =
      (decide (s.length = t.length)
        && (List.zip s t).all (fun p => sameLetter sf p.1 p.2)) := by
  induction s generalizing t with
  | nil => cases t <;> simp [EqualFold.loop]
  | cons a s ih =>
    cases t with
    | nil => simp [EqualFold.loop]
    | cons b t =>
      simp only [EqualFold.loop, List.zip_cons_cons, List.all_cons, List.length_cons,
        add_left_inj]
      rw [ih t, foldPair_eq_sameLetter]
      cases sameLetter sf a b <;> simp

/-- The library comparison is the specified case-insensitive equality. -/
theorem EqualFold_eq_equalIgnoringCase (sf : Nat → Nat → Bool) (s t : String) :
    EqualFold sf s t = equalIgnoringCase sf s t :=
  EqualFold_loop_eq_spec sf (runes s) (runes t)

theorem Ext_scan_mem (before after : List Char) (c : Char)
    (h : c ∈ Ext.scan before after) : c ∈ before ∨ c ∈ after := by
  induction before generalizing after with
  | nil => simp [Ext.scan] at h
  | cons b before ih =>
    unfold Ext.scan at h
    split_ifs at h with h1 h2
    · simp at h
    · rcases List.mem_cons.mp h with h | h
      · exact Or.inl (by simp [h])
      · exact Or.inr h
    · rcases ih (b :: after) h with h | h
      · exact Or.inl (List.mem_cons_of_mem b h)
      · rcases List.mem_cons.mp h with h | h
        · exact Or.inl (by simp [h])
        · exact Or.inr h

/-- The extension of an ASCII link is ASCII. -/
theorem IsASCII_Ext (link : String) (h : IsASCII link) : IsASCII (Ext link) := by
  intro r hr
  simp only [runes, Ext, String.toList, List.mem_map] at hr
  obtain ⟨c, hc, rfl⟩ := hr
  rcases Ext_scan_mem _ _ c hc with hm | hm
  · apply h
    simp only [runes, String.toList, List.mem_map]
    exact ⟨c, List.mem_reverse.mp hm, rfl⟩
  · simp at hm

theorem filterLinks_singleton (sf : Nat → Nat → Bool) (link : String)
    (extensions : List String) :
    filterLinks sf [link] extensions =
      if extensions.any (fun e => EqualFold sf (Ext link) e) then [link] else [] := by
  rw [filterLinks_filter]
  by_cases h : matchesAny sf extensions link = true
  · have h2 : (extensions.any fun e => EqualFold sf (Ext link) e) = true := h
    simp [h, h2]
  · have h2 : ¬ (extensions.any fun e => EqualFold sf (Ext link) e) = true := h
    simp [h, h2]

theorem any_congr_mem {α : Type} (xs : List α) (f g : α → Bool)
    (h : ∀ x ∈ xs, f x = g x) : xs.any f = xs.any g := by
  induction xs with
  | nil => rfl
  | cons x xs ih =>
    simp only [List.any_cons]
    rw [h x (List.mem_cons_self x xs), ih (fun y hy => h y (List.mem_cons_of_mem x hy))]

/-- C4: `filterLinks(links, extensions)` is the list of the links, each
occurrence once and in input order, whose extension `filepath.Ext(link)` equals
some entry of `extensions` when letter case is ignored (same length, and at
every position the same rune, or two ASCII runes with the same lower-case form,
or two runes related by the Unicode folding table). On ASCII inputs that is
equality of the lower-cased extension and the lower-cased entry. An entry `.JPG`
retains a link with extension `.jpg`, an entry `.jpg` a link with extension
`.JPG`, and an entry `.jpg` retains neither a `.png` nor a `.gif` link. -/
theorem filterLinks_retains_case_insensitive_matches (sf : Nat → Nat → Bool)
    (links extensions : List String) :
    filterLinks sf links extensions =
        links.filter (fun l => extensions.any (fun e => equalIgnoringCase sf (Ext l) e))
      ∧ ((∀ l ∈ links, IsASCII l) → (∀ e ∈ extensions, IsASCII e) →
          filterLinks sf links extensions =
            links.filter (fun l => extensions.any (fun e =>
              decide ((runes (Ext l)).map asciiLower = (runes e).map asciiLower))))
      ∧ filterLinks sf ["http://a.test/p2.jpg"] [".JPG"] = ["http://a.test/p2.jpg"]
      ∧ filterLinks sf ["http://a.test/P2.JPG"] [".jpg"] = ["http://a.test/P2.JPG"]
      ∧ filterLinks sf
          ["http://a.test/a.png", "http://a.test/b.gif", "http://a.test/c.jpg"] [".jpg"]
          = ["http://a.test/c.jpg"] := by
  refine ⟨?_, ?_, rfl, rfl, rfl⟩
  · rw [filterLinks_filter]
    apply List.filter_congr
    intro l _
    exact any_congr_mem extensions _ _
      (fun e _ => EqualFold_eq_equalIgnoringCase sf (Ext l) e)
  · intro hl he
    rw [filterLinks_filter]
    apply List.filter_congr
    intro l hlm
    apply any_congr_mem
    intro e hem
    rw [Bool.eq_iff_iff, decide_eq_true_iff]
    exact EqualFold_ascii_iff sf (Ext l) e (IsASCII_Ext l (hl l hlm)) (he e hem)

/-- C5, as stated, fails: the extension is taken from the whole link string, so
a query after the file name belongs to it (`.jpg?x=1` is not `.jpg` and the
link is dropped) and a URL without path has its host suffix as extension
(`http://a.test` is retained by `.test`). -/
theorem filterLinks_path_extension_counterexample :
    Ext "http://a.test/p2.jpg?x=1" = ".jpg?x=1"
      ∧ filterLinks noFold ["http://a.test/p2.jpg?x=1"] [".jpg"] = []
      ∧ Ext "http://a.test" = ".test"
      ∧ filterLinks noFold ["http://a.test"] [".test"] = ["http://a.test"] := by
  decide

/-- C5, amended: the extension `filterLinks` compares against the allow-list is
`filepath.Ext` of the whole link string. When the last of the characters `.`
and `/` in the string is a dot, it is the suffix from that dot; when it is a
slash, or the string has neither, it is empty. The link is retained exactly
when that suffix folds to an entry of the allow-list. -/
theorem filterLinks_extension_of_link_string (sf : Nat → Nat → Bool)
    (pre suf : List Char) (hdot : '.' ∉ suf) (hsep : '/' ∉ suf) :
    Ext (String.mk (pre ++ '.' :: suf)) = String.mk ('.' :: suf)
      ∧ Ext (String.mk (pre ++ '/' :: suf)) = ""
      ∧ Ext (String.mk suf) = ""
      ∧ (∀ extensions : List String,
          filterLinks sf [String.mk (pre ++ '.' :: suf)] extensions =
            if extensions.any (fun e => EqualFold sf (String.mk ('.' :: suf)) e)
            then [String.mk (pre ++ '.' :: suf)] else [])
      ∧ (∀ extensions : List String,
          filterLinks sf [String.mk (pre ++ '/' :: suf)] extensions =
            if extensions.any (fun e => EqualFold sf "" e)
            then [String.mk (pre ++ '/' :: suf)] else []) := by
  refine ⟨Ext_of_dot pre suf hdot hsep, Ext_of_sep pre suf hdot hsep,
    Ext_of_plain suf hdot hsep, ?_, ?_⟩
  · intro extensions
    rw [filterLinks_singleton, Ext_of_dot pre suf hdot hsep]
  · intro extensions
    rw [filterLinks_singleton, Ext_of_sep pre suf hdot hsep]

/-- C5, amended, at the link `http://a.test/p2.jpg?x=1`: its extension is
`.jpg?x=1`. -/
theorem filterLinks_extension_of_link_string_witness :
    ('.' ∉ "jpg?x=1".toList ∧ '/' ∉ "jpg?x=1".toList)
      ∧ Ext "http://a.test/p2.jpg?x=1" = ".jpg?x=1"
      ∧ filterLinks noFold ["http://a.test/p2.jpg?x=1"] [".jpg?x=1"]
          = ["http://a.test/p2.jpg?x=1"] := by
  have h := filterLinks_extension_of_link_string noFold "http://a.test/p2".toList
    "jpg?x=1".toList (by decide) (by decide)
  refine ⟨by decide, h.1, ?_⟩
  have h4 := h.2.2.2.1 [".jpg?x=1"]
  exact h4.trans (by decide)

/-- C6: `filterLinks(links, extensions)` is a sublist of `links`: only elements
of `links`, in their original order, each occurrence at most once. -/
theorem filterLinks_sublist (sf : Nat → Nat → Bool) (links extensions : List String) :
    List.Sublist (filterLinks sf links extensions) links := by
  rw [filterLinks_filter]
  exact List.filter_sublist links

/-- C7: `filterLinks` is idempotent in its first argument. -/
theorem filterLinks_idempotent (sf : Nat → Nat → Bool) (links extensions : List String) :
    filterLinks sf (filterLinks sf links extensions) extensions =
      filterLinks sf links extensions := by
  rw [filterLinks_filter, filterLinks_filter, List.filter_filter]
  simp

/-! ## Link extraction -/

theorem attrLoop_eq_findSome (env : Env) (u : URL) (st : State) (attrs : List Attribute) :
    attrLoop env u st attrs =
      match attrs.findSome? (admits env u) with
      | none => st
      | some s => { st with toVisit := st.toVisit ++ [s], links := st.links ++ [s] } := by
  induction attrs with
  | nil => simp [attrLoop]
  | cons attr rest ih =>
    by_cases hk : attr.Key = "href"
    · cases hp : env.Parse u attr.Val with
      | none => simp [attrLoop, admits, hk, hp, ih, List.findSome?]
      | some l =>
        by_cases hs : l.Scheme = u.Scheme
        · simp [attrLoop, admits, hk, hp, hs, List.findSome?]
        · simp [attrLoop, admits, hk, hp, hs, ih, List.findSome?]
    · simp [attrLoop, admits, hk, ih, List.findSome?]

theorem admits_admitted (env : Env) (u : URL) (attr : Attribute) (s : String)
    (h : admits env u attr = some s) : Admitted env u s := by
  unfold admits at h
  by_cases hk : attr.Key = "href"
  · rw [if_pos hk] at h
    cases hp : env.Parse u attr.Val with
    | none => simp [hp] at h
    | some l =>
      by_cases hs : l.Scheme = u.Scheme
      · simp [hp, hs] at h
        exact ⟨attr.Val, l, hp, hs, h⟩
      · simp [hp, hs] at h
  · simp [hk] at h

theorem Extends.refl (env : Env) (u : URL) (st : State) : Extends env u st st :=
  ⟨rfl, rfl, fun _ h => Or.inl h, fun _ h => Or.inl h⟩

theorem Extends.trans {env : Env} {u : URL} {a b c : State}
    (h1 : Extends env u a b) (h2 : Extends env u b c) : Extends env u a c := by
  obtain ⟨hv1, hf1, ht1, hl1⟩ := h1
  obtain ⟨hv2, hf2, ht2, hl2⟩ := h2
  refine ⟨hv2.trans hv1, hf2.trans hf1, ?_, ?_⟩
  · intro s hs
    rcases ht2 s hs with h | h
    · exact ht1 s h
    · exact Or.inr h
  · intro s hs
    rcases hl2 s hs with h | h
    · exact hl1 s h
    · exact Or.inr h

theorem attrLoop_extends (env : Env) (u : URL) (st : State) (attrs : List Attribute) :
    Extends env u st (attrLoop env u st attrs) := by
  rw [attrLoop_eq_findSome]
  cases hf : attrs.findSome? (admits env u) with
  | none => exact Extends.refl env u st
  | some s =>
    obtain ⟨attr, _, ha⟩ := List.exists_of_findSome?_eq_some hf
    have hadm : Admitted env u s := admits_admitted env u attr s ha
    refine ⟨rfl, rfl, ?_, ?_⟩
    · intro x hx
      simp only [List.mem_append, List.mem_singleton] at hx
      rcases hx with h | h
      · exact Or.inl h
      · exact Or.inr (h ▸ hadm)
    · intro x hx
      simp only [List.mem_append, List.mem_singleton] at hx
      rcases hx with h | h
      · exact Or.inl h
      · exact Or.inr (h ▸ hadm)

theorem tokenLoop_cons (env : Env) (u : URL) (st : State) (t : Token) (rest : List Token) :
    tokenLoop env u st (t :: rest) =
      if t.Typ = .ErrorToken then st
      else if (t.Typ = .StartTagToken ∨ t.Typ = .SelfClosingTagToken) ∧ t.Data = "a" then
        tokenLoop env u (attrLoop env u st t.Attr) rest
      else tokenLoop env u st rest := by
  obtain ⟨ty, data, attrs⟩ := t
  cases ty <;> simp [tokenLoop]

theorem tokenLoop_extends (env : Env) (u : URL) (st : State) (body : List Token) :
    Extends env u st (tokenLoop env u st body) := by
  induction body generalizing st with
  | nil => exact Extends.refl env u st
  | cons t rest ih =>
    rw [tokenLoop_cons]
    split_ifs
    · exact Extends.refl env u st
    · exact (attrLoop_extends env u st t.Attr).trans (ih _)
    · exact ih st

theorem attrLoop_no_href (env : Env) (u : URL) (st : State) (attrs : List Attribute)
    (h : ∀ b ∈ attrs, b.Key ≠ "href") : attrLoop env u st attrs = st := by
  induction attrs with
  | nil => rfl
  | cons b rest ih =>
    have hb : b.Key ≠ "href" := h b (List.mem_cons_self b rest)
    simp only [attrLoop, hb, if_false]
    exact ih (fun c hc => h c (List.mem_cons_of_mem b hc))

theorem attrLoop_skip_leading (env : Env) (u : URL) (st : State)
    (pre attrs : List Attribute) (h : ∀ b ∈ pre, b.Key ≠ "href") :
    attrLoop env u st (pre ++ attrs) = attrLoop env u st attrs := by
  induction pre with
  | nil => rfl
  | cons b rest ih =>
    have hb : b.Key ≠ "href" := h b (List.mem_cons_self b rest)
    simp only [List.cons_append, attrLoop, hb, if_false]
    exact ih (fun c hc => h c (List.mem_cons_of_mem b hc))

/-- A tag whose only `href` is `a` contributes what `a` contributes. -/
theorem attrLoop_single_href (env : Env) (u : URL) (st : State)
    (pre post : List Attribute) (a : Attribute)
    (hpre : ∀ b ∈ pre, b.Key ≠ "href") (ha : a.Key = "href")
    (hpost : ∀ b ∈ post, b.Key ≠ "href") :
    attrLoop env u st (pre ++ a :: post) =
      (match admits env u a with
        | none => st
        | some s => { st with toVisit := st.toVisit ++ [s], links := st.links ++ [s] }) := by
  rw [attrLoop_skip_leading env u st pre (a :: post) hpre]
  have hrest := attrLoop_no_href env u st post hpost
  cases hp : env.Parse u a.Val with
  | none => simp [attrLoop, admits, ha, hp, hrest]
  | some l =>
    by_cases hs : l.Scheme = u.Scheme
    · simp [attrLoop, admits, ha, hp, hs]
    · simp [attrLoop, admits, ha, hp, hs, hrest]

/-! ## The outer loop -/

theorem iteration_nil (env : Env) (u : URL) (extensions : List String) (st : State)
    (h : st.toVisit = []) : iteration env u extensions st = .finished st := by
  simp [iteration, h]

theorem iteration_cons (env : Env) (u : URL) (extensions : List String) (st : State)
    (x : String) (rest : List String) (h : st.toVisit = x :: rest) :
    iteration env u extensions st =
      if x ∈ st.visited then .running { st with toVisit := rest }
      else if env.NewRequest x then
        match env.Do st.fetched x with
        | none =>
          .running { st with toVisit := rest, visited := x :: st.visited,
                             fetched := st.fetched ++ [x] }
        | some body =>
          .rendered
            (tokenLoop env u { st with toVisit := rest, visited := x :: st.visited,
                                       fetched := st.fetched ++ [x] } body)
            (filterLinks env.simpleFold
              (tokenLoop env u { st with toVisit := rest, visited := x :: st.visited,
                                         fetched := st.fetched ++ [x] } body).links extensions)
      else .running { st with toVisit := rest, visited := x :: st.visited } := by
  simp only [iteration, h]

theorem Inv.of_extends {env : Env} {u : URL} {urlStr : String} {st st1 : State}
    (hi : Inv env u urlStr st) (he : Extends env u st st1) : Inv env u urlStr st1 := by
  obtain ⟨hn, hf, ht, hl⟩ := hi
  obtain ⟨ev, ef, et, el⟩ := he
  refine ⟨ef ▸ hn, ?_, ?_, ?_⟩
  · intro s hs
    rw [ev]
    exact hf s (ef ▸ hs)
  · intro s hs
    rcases et s hs with h | h
    · exact ht s h
    · exact Or.inr h
  · intro s hs
    rcases el s hs with h | h
    · exact hl s h
    · exact h

theorem Inv.init (env : Env) (u : URL) (urlStr : String) :
    Inv env u urlStr (State.init urlStr) := by
  refine ⟨List.nodup_nil, ?_, ?_, ?_⟩ <;> simp [State.init]

theorem iteration_inv (env : Env) (u : URL) (extensions : List String) (urlStr : String)
    (st : State) (hi : Inv env u urlStr st) :
    Inv env u urlStr (iteration env u extensions st).state := by
  cases hq : st.toVisit with
  | nil => rw [iteration_nil env u extensions st hq]; exact hi
  | cons x rest =>
    obtain ⟨hn, hf, ht, hl⟩ := hi
    have htr : ∀ s ∈ rest, s = urlStr ∨ Admitted env u s :=
      fun s hs => ht s (by rw [hq]; exact List.mem_cons_of_mem x hs)
    rw [iteration_cons env u extensions st x rest hq]
    by_cases hv : x ∈ st.visited
    · rw [if_pos hv]
      exact ⟨hn, hf, htr, hl⟩
    · rw [if_neg hv]
      have hxf : x ∉ st.fetched := fun h => hv (hf x h)
      have hvis : ∀ s ∈ st.fetched, s ∈ x :: st.visited :=
        fun s hs => List.mem_cons_of_mem x (hf s hs)
      have hn2 : (st.fetched ++ [x]).Nodup := by
        rw [List.nodup_append]
        refine ⟨hn, List.nodup_singleton x, ?_⟩
        intro a ha hb
        rw [List.mem_singleton] at hb
        exact hxf (hb ▸ ha)
      have hvis2 : ∀ s ∈ st.fetched ++ [x], s ∈ x :: st.visited := by
        intro s hs
        rw [List.mem_append, List.mem_singleton] at hs
        rcases hs with h | h
        · exact hvis s h
        · rw [h]; exact List.mem_cons_self x _
      have hi2 : Inv env u urlStr ⟨x :: st.visited, rest, st.links, st.fetched ++ [x]⟩ :=
        ⟨hn2, hvis2, htr, hl⟩
      by_cases hr : env.NewRequest x = true
      · rw [if_pos hr]
        cases env.Do st.fetched x with
        | none => exact hi2
        | some body => exact hi2.of_extends (tokenLoop_extends env u _ body)
      · rw [if_neg hr]
        exact ⟨hn, hvis, htr, hl⟩

theorem iterate_inv (env : Env) (u : URL) (extensions : List String) (urlStr : String)
    (n : Nat) (st : State) (hi : Inv env u urlStr st) :
    Inv env u urlStr (iterate env u extensions n st).state := by
  induction n generalizing st with
  | zero => exact hi
  | succ n ih =>
    have h1 := iteration_inv env u extensions urlStr st hi
    unfold iterate
    cases ho : iteration env u extensions st with
    | running st1 =>
      rw [ho] at h1
      exact ih st1 h1
    | rendered st1 fl => rw [ho] at h1; exact h1
    | finished st1 => rw [ho] at h1; exact h1

theorem iteration_visited_count (env : Env) (u : URL) (extensions : List String)
    (st : State) (x : String) (hx : x ∈ st.visited) :
    x ∈ (iteration env u extensions st).state.visited
      ∧ (iteration env u extensions st).state.fetched.count x = st.fetched.count x := by
  cases hq : st.toVisit with
  | nil => rw [iteration_nil env u extensions st hq]; exact ⟨hx, rfl⟩
  | cons y rest =>
    rw [iteration_cons env u extensions st y rest hq]
    by_cases hv : y ∈ st.visited
    · rw [if_pos hv]; exact ⟨hx, rfl⟩
    · rw [if_neg hv]
      have hne : y ≠ x := fun h => hv (h ▸ hx)
      have hc : (st.fetched ++ [y]).count x = st.fetched.count x := by
        simp [List.count_append, List.count_singleton, hne]
      by_cases hr : env.NewRequest y = true
      · rw [if_pos hr]
        cases env.Do st.fetched y with
        | none => exact ⟨List.mem_cons_of_mem y hx, hc⟩
        | some body =>
          obtain ⟨ev, ef, _, _⟩ := tokenLoop_extends env u
            ⟨y :: st.visited, rest, st.links, st.fetched ++ [y]⟩ body
          refine ⟨?_, ?_⟩
          · show x ∈ (tokenLoop env u _ body).visited
            rw [ev]; exact List.mem_cons_of_mem y hx
          · show (tokenLoop env u _ body).fetched.count x = _
            rw [ef]; exact hc
      · rw [if_neg hr]
        exact ⟨List.mem_cons_of_mem y hx, rfl⟩

theorem iterate_visited_count (env : Env) (u : URL) (extensions : List String)
    (n : Nat) (st : State) (x : String) (hx : x ∈ st.visited) :
    (iterate env u extensions n st).state.fetched.count x = st.fetched.count x := by
  induction n generalizing st with
  | zero => rfl
  | succ n ih =>
    have h1 := iteration_visited_count env u extensions st x hx
    unfold iterate
    cases ho : iteration env u extensions st with
    | running st1 =>
      rw [ho] at h1
      exact (ih st1 h1.1).trans h1.2
    | rendered st1 fl => rw [ho] at h1; exact h1.2
    | finished st1 => rw [ho] at h1; exact h1.2

theorem iterate_succ_of_running (env : Env) (u : URL) (extensions : List String)
    (n : Nat) (st st1 : State) (h : iteration env u extensions st = .running st1) :
    iterate env u extensions (n + 1) st = iterate env u extensions n st1 := by
  simp [iterate, h]

theorem iterate_succ_of_rendered (env : Env) (u : URL) (extensions : List String)
    (n : Nat) (st st1 : State) (fl : List String)
    (h : iteration env u extensions st = .rendered st1 fl) :
    iterate env u extensions (n + 1) st = .rendered st1 fl := by
  simp [iterate, h]

theorem iterate_succ_of_finished (env : Env) (u : URL) (extensions : List String)
    (n : Nat) (st st1 : State) (h : iteration env u extensions st = .finished st1) :
    iterate env u extensions (n + 1) st = .finished st1 := by
  simp [iterate, h]

/-- Every pass that goes on shortens the frontier by one entry. -/
theorem iteration_running_length (env : Env) (u : URL) (extensions : List String)
    (st st1 : State) (h : iteration env u extensions st = .running st1) :
    st1.toVisit.length + 1 = st.toVisit.length := by
  cases hq : st.toVisit with
  | nil => rw [iteration_nil env u extensions st hq] at h; cases h
  | cons y rest =>
    rw [iteration_cons env u extensions st y rest hq] at h
    split_ifs at h
    · cases h; rfl
    · cases hd : env.Do st.fetched y with
      | none => rw [hd] at h; cases h; rfl
      | some body => rw [hd] at h; cases h
    · cases h; rfl

/-- From any state the loop ends within one pass more than the frontier has
entries, and more fuel does not change the outcome. -/
theorem iterate_ends (env : Env) (u : URL) (extensions : List String) (st : State) :
    ∃ o, (∀ st1, o ≠ .running st1)
      ∧ ∀ k, iterate env u extensions (st.toVisit.length + 1 + k) st = o := by
  generalize hn : st.toVisit.length = n
  induction n generalizing st with
  | zero =>
    have hq : st.toVisit = [] := List.length_eq_zero.mp hn
    refine ⟨.finished st, fun _ h => (by cases h), fun k => ?_⟩
    rw [show 0 + 1 + k = k + 1 by omega]
    exact iterate_succ_of_finished env u extensions k st st
      (iteration_nil env u extensions st hq)
  | succ n ih =>
    cases ho : iteration env u extensions st with
    | running st1 =>
      have hl := iteration_running_length env u extensions st st1 ho
      obtain ⟨o, hne, hk⟩ := ih st1 (by omega)
      refine ⟨o, hne, fun k => ?_⟩
      rw [show n + 1 + 1 + k = (n + 1 + k) + 1 by omega,
        iterate_succ_of_running env u extensions _ st st1 ho]
      exact hk k
    | rendered st1 fl =>
      refine ⟨.rendered st1 fl, fun _ h => (by cases h), fun k => ?_⟩
      rw [show n + 1 + 1 + k = (n + 1 + k) + 1 by omega]
      exact iterate_succ_of_rendered env u extensions _ st st1 fl ho
    | finished st1 =>
      refine ⟨.finished st1, fun _ h => (by cases h), fun k => ?_⟩
      rw [show n + 1 + 1 + k = (n + 1 + k) + 1 by omega]
      exact iterate_succ_of_finished env u extensions _ st st1 ho

theorem filterLinks_subset (sf : Nat → Nat → Bool) (links extensions : List String) :
    filterLinks sf links extensions ⊆ links := by
  rw [filterLinks_filter]
  exact (List.filter_sublist links).subset

/-- What is rendered is the filter applied to the links discovered so far. -/
theorem iterate_rendered_eq (env : Env) (u : URL) (extensions : List String)
    (m : Nat) (st0 st : State) (fl : List String)
    (h : iterate env u extensions m st0 = .rendered st fl) :
    fl = filterLinks env.simpleFold st.links extensions := by
  induction m generalizing st0 with
  | zero => cases h
  | succ m ih =>
    cases hit : iteration env u extensions st0 with
    | running st1 =>
      rw [iterate_succ_of_running env u extensions m st0 st1 hit] at h
      exact ih st1 h
    | finished st1 =>
      rw [iterate_succ_of_finished env u extensions m st0 st1 hit] at h
      cases h
    | rendered st1 fl1 =>
      rw [iterate_succ_of_rendered env u extensions m st0 st1 fl1 hit] at h
      cases h
      cases hq : st0.toVisit with
      | nil => rw [iteration_nil env u extensions st0 hq] at hit; cases hit
      | cons y rest =>
        rw [iteration_cons env u extensions st0 y rest hq] at hit
        split_ifs at hit
        cases hd : env.Do st0.fetched y with
        | none => rw [hd] at hit; cases hit
        | some body => rw [hd] at hit; cases hit; rfl

/-! ## Properties of the crawl -/

/-- C1 at the cyclic site: `a.html` links to `b.html` and `b.html` links back.
The handler renders its results at the end of the first page it reads, so
`b.html` stays in the frontier and is never requested, and the link back to
`a.html` found on it is not among the discovered links, however much fuel the
loop is given. -/
theorem crawl_cyclic_site_stops_after_first_page :
    iterate (exampleEnv cyclicSite) seedA [".html"] 10 (State.init "http://a.test/a.html")
        = .rendered
            { visited := ["http://a.test/a.html"], toVisit := ["http://a.test/b.html"],
              links := ["http://a.test/b.html"], fetched := ["http://a.test/a.html"] }
            ["http://a.test/b.html"]
      ∧ crawlHandler (exampleEnv cyclicSite) 10 [".html"] "http://a.test/a.html"
        = some (.results ["http://a.test/b.html"])
      ∧ "http://a.test/a.html" ∉
          (iterate (exampleEnv cyclicSite) seedA [".html"] 10
            (State.init "http://a.test/a.html")).state.links := by
  decide

/-- C2: in a crawl from any seed, with any collaborators and any fuel, no URL
string occurs more than once among the URLs passed to `client.Do`. -/
theorem fetch_at_most_once (env : Env) (u : URL) (extensions : List String)
    (urlStr : String) (n : Nat) (s : String) :
    (iterate env u extensions n (State.init urlStr)).state.fetched.count s ≤ 1 :=
  List.nodup_iff_count_le_one.mp
    (iterate_inv env u extensions urlStr n _ (Inv.init env u urlStr)).1 s

/-- C3: at every outcome of the outer loop every frontier entry is the seed
string or the string of a URL admitted by the scheme test, every discovered
link and every rendered link is the string of a URL admitted by the scheme
test; on the seed `http://a.test/` with anchors `/p1`, `p2.jpg` and
`ftp://a.test/f` the discovered links are `http://a.test/p1` and
`http://a.test/p2.jpg`. -/
theorem discovered_links_have_seed_scheme (env : Env) (u : URL) (extensions : List String)
    (urlStr : String) (n : Nat) :
    ((∀ s ∈ (iterate env u extensions n (State.init urlStr)).state.toVisit,
          s = urlStr ∨ ∃ ref linkURL, env.Parse u ref = some linkURL
            ∧ linkURL.Scheme = u.Scheme ∧ linkURL.str = s)
      ∧ (∀ s ∈ (iterate env u extensions n (State.init urlStr)).state.links,
          ∃ ref linkURL, env.Parse u ref = some linkURL
            ∧ linkURL.Scheme = u.Scheme ∧ linkURL.str = s)
      ∧ (∀ st filteredLinks,
          iterate env u extensions n (State.init urlStr) = .rendered st filteredLinks →
          ∀ s ∈ filteredLinks, ∃ ref linkURL, env.Parse u ref = some linkURL
            ∧ linkURL.Scheme = u.Scheme ∧ linkURL.str = s))
      ∧ (iterate (exampleEnv schemeSite) seedRoot [] 1 (State.init "http://a.test/")).state.links
          = ["http://a.test/p1", "http://a.test/p2.jpg"] := by
  have hi := iterate_inv env u extensions urlStr n _ (Inv.init env u urlStr)
  refine ⟨⟨hi.2.2.1, hi.2.2.2, ?_⟩, by decide⟩
  intro st fl ho s hs
  have hsub : s ∈ st.links := by
    rw [iterate_rendered_eq env u extensions n _ st fl ho] at hs
    exact filterLinks_subset env.simpleFold st.links extensions hs
  rw [ho] at hi
  exact hi.2.2.2 s hsub

/-- C8: when the request for a dequeued, not yet visited URL fails (the request
cannot be built or `client.Do` returns an error), the pass ends in `continue`:
the URL is marked visited, the discovered links are unchanged, the frontier is
what remained after the dequeue, the loop goes on from that state, and the URL
is not requested again in any later pass. -/
theorem fetch_failure_skips_node (env : Env) (u : URL) (extensions : List String)
    (st : State) (urlStr : String) (rest : List String)
    (hq : st.toVisit = urlStr :: rest) (hv : urlStr ∉ st.visited)
    (hfail : env.NewRequest urlStr = false ∨ env.Do st.fetched urlStr = none) :
    ∃ st1, iteration env u extensions st = .running st1
      ∧ st1.visited = urlStr :: st.visited
      ∧ st1.links = st.links
      ∧ st1.toVisit = rest
      ∧ (∀ n, iterate env u extensions (n + 1) st = iterate env u extensions n st1)
      ∧ (∀ n, (iterate env u extensions n st1).state.fetched.count urlStr
              = st1.fetched.count urlStr) := by
  have hit := iteration_cons env u extensions st urlStr rest hq
  rw [if_neg hv] at hit
  by_cases hr : env.NewRequest urlStr = true
  · have hd : env.Do st.fetched urlStr = none := by
      rcases hfail with h | h
      · rw [hr] at h; cases h
      · exact h
    rw [if_pos hr, hd] at hit
    refine ⟨_, hit, rfl, rfl, rfl, fun n => iterate_succ_of_running env u extensions n st _ hit,
      fun n => iterate_visited_count env u extensions n _ urlStr (List.mem_cons_self _ _)⟩
  · rw [if_neg hr] at hit
    refine ⟨_, hit, rfl, rfl, rfl, fun n => iterate_succ_of_running env u extensions n st _ hit,
      fun n => iterate_visited_count env u extensions n _ urlStr (List.mem_cons_self _ _)⟩

/-- C8 on a site where every request fails, with two pending URLs: the first is
marked visited and the loop goes on with the second. -/
theorem fetch_failure_skips_node_witness :
    (twoPending.toVisit = "http://a.test/down" :: ["http://a.test/next"]
        ∧ "http://a.test/down" ∉ twoPending.visited
        ∧ (exampleEnv deadSite).Do twoPending.fetched "http://a.test/down" = none)
      ∧ ∃ st1, iteration (exampleEnv deadSite) seedRoot [] twoPending = .running st1
          ∧ st1.visited = ["http://a.test/down"]
          ∧ st1.links = []
          ∧ st1.toVisit = ["http://a.test/next"] := by
  refine ⟨⟨rfl, by decide, rfl⟩, ?_⟩
  obtain ⟨st1, h1, h2, h3, h4, _, _⟩ :=
    fetch_failure_skips_node (exampleEnv deadSite) seedRoot [] twoPending
      "http://a.test/down" ["http://a.test/next"] rfl (by decide) (Or.inr rfl)
  exact ⟨st1, h1, h2, h3, h4⟩

/-- C9: for every seed string, extension list and collaborators the handler
returns: two passes through the outer loop end it, and any larger fuel gives the
same response. On the cyclic site the response is the results page for the one
link found on the seed page. -/
theorem crawlHandler_terminates (env : Env) (extensions : List String) (urlStr : String) :
    (∃ r, ∀ k, crawlHandler env (2 + k) extensions urlStr = some r)
      ∧ crawlHandler (exampleEnv cyclicSite) 2 [".html"] "http://a.test/a.html"
          = some (.results ["http://a.test/b.html"]) := by
  refine ⟨?_, by decide⟩
  unfold crawlHandler
  cases env.urlParse urlStr with
  | none => exact ⟨.badRequest, fun _ => rfl⟩
  | some u =>
    obtain ⟨o, hne, hk⟩ := iterate_ends env u extensions (State.init urlStr)
    have hk2 : ∀ k, iterate env u extensions (2 + k) (State.init urlStr) = o := by
      intro k
      have := hk k
      rw [show (State.init urlStr).toVisit.length + 1 + k = 2 + k by
        simp [State.init]] at this
      exact this
    cases o with
    | running st1 => exact absurd rfl (hne st1)
    | rendered st1 fl => exact ⟨.results fl, fun k => by simp [hk2 k]⟩
    | finished st1 => exact ⟨.noBody, fun k => by simp [hk2 k]⟩

/-- C10, as stated of the attribute list of a tag token, fails: when the token
of an `a` tag carries the attributes `href="ftp://a.test/f"` and `href="/p1"` in
this order, the seed being `http://a.test/`, the rejected first `href` sends the
attribute loop on to the second and the element contributes the link
`http://a.test/p1`. -/
theorem attrLoop_later_href_counterexample :
    (attrLoop (exampleEnv deadSite) seedRoot (State.init "http://a.test/")
        [⟨"href", "ftp://a.test/f"⟩, ⟨"href", "/p1"⟩]).links = ["http://a.test/p1"]
      ∧ (tokenLoop (exampleEnv deadSite) seedRoot (State.init "http://a.test/")
          [⟨.StartTagToken, "a", [⟨"href", "ftp://a.test/f"⟩, ⟨"href", "/p1"⟩]⟩]).links
          = ["http://a.test/p1"] := by
  decide

/-- C10, amended: for the token of an anchor start or self-closing tag, link
extraction scans the attribute list of the token in order and takes the first
attribute that is a `href`, resolves, and resolves to a URL with the seed
scheme; that link is appended to the frontier and to the discovered links and
every later attribute is ignored, so the element contributes at most one link,
and nothing when no attribute qualifies. A token that carries exactly one
`href` contributes the link of that `href` when it qualifies and nothing
otherwise; with the seed `http://a.test/`, a token whose only attribute is
`href="ftp://a.test/f"` contributes nothing. End tags contribute nothing. -/
theorem attrLoop_takes_first_admitted_href (env : Env) (u : URL) (st : State)
    (attrs : List Attribute) (rest : List Token) :
    attrLoop env u st attrs =
        (match attrs.findSome? (admits env u) with
          | none => st
          | some s => { st with toVisit := st.toVisit ++ [s], links := st.links ++ [s] })
      ∧ tokenLoop env u st (⟨.StartTagToken, "a", attrs⟩ :: rest)
          = tokenLoop env u (attrLoop env u st attrs) rest
      ∧ tokenLoop env u st (⟨.SelfClosingTagToken, "a", attrs⟩ :: rest)
          = tokenLoop env u (attrLoop env u st attrs) rest
      ∧ tokenLoop env u st (⟨.EndTagToken, "a", attrs⟩ :: rest) = tokenLoop env u st rest
      ∧ (attrLoop env u st attrs).links.length ≤ st.links.length + 1
      ∧ (∀ (pre post : List Attribute) (a : Attribute),
          attrs = pre ++ a :: post → (∀ b ∈ pre, b.Key ≠ "href") → a.Key = "href" →
          (∀ b ∈ post, b.Key ≠ "href") →
          attrLoop env u st attrs =
            (match admits env u a with
              | none => st
              | some s =>
                { st with toVisit := st.toVisit ++ [s], links := st.links ++ [s] }))
      ∧ (attrLoop (exampleEnv deadSite) seedRoot (State.init "http://a.test/")
          [⟨"href", "ftp://a.test/f"⟩]).links = [] := by
  refine ⟨attrLoop_eq_findSome env u st attrs, ?_, ?_, ?_, ?_, ?_, by decide⟩
  · simp [tokenLoop]
  · simp [tokenLoop]
  · simp [tokenLoop]
  · rw [attrLoop_eq_findSome]
    cases attrs.findSome? (admits env u) <;> simp
  · intro pre post a hattrs hpre ha hpost
    rw [hattrs]
    exact attrLoop_single_href env u st pre post a hpre ha hpost

end Crawler
